import Mathlib

/-!
Verification of the CoVA web-object-detection core: a shallow embedding of
the data pipeline (`src/datasets.py`) and of the model head
(`src/models.py`), with theorems about the batch assembler, the sample
loader, the feature-width bookkeeping of `VAMWOD.__init__` / `VAMWOD.forward`,
and the `GraphAttentionLayer` context-attention computation.

Numeric tensors are embedded as lists of rationals (a row-major matrix is a
list of rows); integer index tensors as lists of integers.  The softmax's
exponential is abstracted by a parameter `E : ℚ → ℚ`, constrained to be
positive where a theorem needs it (the only property of `exp` that the
statements use).
-/

namespace CoVA

/-- Corner-form conversion of one stored box row (src/datasets.py line 56,
the in-place update of columns 2 and 3 by columns 0 and 1): a stored row
`[x, y, w, h]` becomes `[x, y, x + w, y + h]`. -/
def toCorners : List ℚ → List ℚ
  | [x, y, w, h] => [x, y, x + w, y + h]
  | b => b

/-- Background boxes kept by `WebDataset.__getitem__` (src/datasets.py lines
51-53): when `0 < maxBgBoxes` the list is randomly shuffled and truncated to
`maxBgBoxes` entries, otherwise all of `otherBoxes` are kept in their stored
order.  The random shuffle is modelled by the explicit argument `shuffledBg`;
theorems quantify over all permutations `shuffledBg` of `otherBoxes`. -/
def bgKept (otherBoxes shuffledBg : List (List ℚ)) (maxBgBoxes : ℤ) : List (List ℚ) :=
  if 0 < maxBgBoxes then shuffledBg.take maxBgBoxes.toNat else otherBoxes

/-- Boxes and labels returned by `WebDataset.__getitem__` (src/datasets.py
lines 48-60): the ground-truth boxes concatenated with the kept background
boxes, every row converted to corner form, and labels `[1, 2, 3]` followed by
one `0` per kept background box. -/
def webGetItem (gtBoxes otherBoxes shuffledBg : List (List ℚ)) (maxBgBoxes : ℤ) :
    List (List ℚ) × List ℤ :=
  let bg := bgKept otherBoxes shuffledBg maxBgBoxes
  ((gtBoxes ++ bg).map toCorners, ([1, 2, 3] : List ℤ) ++ List.replicate bg.length 0)

/-- One sample's boxes with the owning-image index prepended to every row
(src/datasets.py lines 92-93: the per-sample concatenation of the
batch-index column with the box tensor). -/
def addBatchIndex (i : ℕ) (boxes : List (List ℚ)) : List (List ℚ) :=
  boxes.map (fun b => (i : ℚ) :: b)

/-- The enumeration loop of `custom_collate_fn` (src/datasets.py lines
90-94), started at index `i`: each sample's boxes get their owning index
prepended and the per-sample lists are concatenated in order. -/
def collateBoxesFrom (i : ℕ) : List (List (List ℚ)) → List (List ℚ)
  | [] => []
  | boxes :: rest => addBatchIndex i boxes ++ collateBoxesFrom (i + 1) rest

/-- Flat box tensor built by `custom_collate_fn` (src/datasets.py lines
90-94). -/
def collateBoxes (batchBoxes : List (List (List ℚ))) : List (List ℚ) :=
  collateBoxesFrom 0 batchBoxes

/-- `custom_collate_fn` (src/datasets.py lines 68-98) restricted to its box
and label outputs (images are stacked unchanged and carry no box data). -/
def customCollateFn (batch : List (List (List ℚ) × List ℤ)) :
    List (List ℚ) × List ℤ :=
  (collateBoxes (batch.map Prod.fst), (batch.map Prod.snd).flatten)

/-- Number of flat rows contributed by the samples strictly before sample
`i`. -/
def boxCountBefore (batchBoxes : List (List (List ℚ))) (i : ℕ) : ℕ :=
  ((batchBoxes.take i).map List.length).sum

/-- Splitting a flat box tensor back by the owning-index column (column 0)
and dropping that column, as in the round-trip property of the spec. -/
def splitByOwner (flat : List (List ℚ)) (i : ℕ) : List (List ℚ) :=
  (flat.filter (fun r => decide (r.headD 0 = (i : ℚ)))).map List.tail

/-! ### Feature-width bookkeeping of `VAMWOD` (src/models.py lines 28-79,
95-131).  Only the declared column widths matter for claim C2, so the
configuration keeps the width-determining fields of `VAMWOD.__init__`. -/

structure VAMWODConfig where
  nVisualFeat : ℕ
  useContext : Bool
  useAttention : Bool
  hiddenDim : ℕ
  useBboxFeat : Bool
  bboxHiddenDim : ℕ
  nAdditionalFeat : ℕ

/-- src/models.py line 51: the bbox-geometry embedding width, `0` when
`use_bbox_feat` is off. -/
def nBboxFeat (c : VAMWODConfig) : ℕ := if c.useBboxFeat then c.bboxHiddenDim else 0

/-- src/models.py line 52: own-feature width, visual + bbox embedding +
additional features. -/
def nFeat (c : VAMWODConfig) : ℕ := c.nVisualFeat + nBboxFeat c + c.nAdditionalFeat

/-- src/models.py line 71: `self.n_total_feat = self.n_feat + hidden_dim`,
computed unconditionally (for every value of `use_context`). -/
def nTotalFeat (c : VAMWODConfig) : ℕ := nFeat c + c.hiddenDim

/-- Declared input width of the decoder's first `Linear` layer
(src/models.py line 74). -/
def decoderInWidth (c : VAMWODConfig) : ℕ := nTotalFeat c

/-- Column width of `context_representation` as built by `VAMWOD.forward`
(src/models.py lines 115-125): the attention output has `hidden_dim`
columns, the averaging path has `n_feat` columns, and with `use_context`
off the slice `own_features[:, :0]` has width `0`. -/
def contextWidth (c : VAMWODConfig) : ℕ :=
  if c.useContext then (if c.useAttention then c.hiddenDim else nFeat c) else 0

/-- Column width of `combined_feat` (src/models.py line 128), the tensor
actually fed to the decoder. -/
def combinedFeatWidth (c : VAMWODConfig) : ℕ := nFeat c + contextWidth c

/-! ### Vector and matrix primitives for the context modules. -/

/-- Dot product of two rows. -/
def dot (xs ys : List ℚ) : ℚ := (List.zipWith (fun a b => a * b) xs ys).sum

/-- Application of a weight matrix (a list of rows) to a vector, the
bias-free `nn.Linear` of src/models.py lines 143-144. -/
def matVec (M : List (List ℚ)) (v : List ℚ) : List ℚ := M.map (fun r => dot r v)

/-- Elementwise vector addition. -/
def addVec (xs ys : List ℚ) : List ℚ := List.zipWith (fun a b => a + b) xs ys

/-- Scalar multiple of a vector. -/
def scaleVec (c : ℚ) (xs : List ℚ) : List ℚ := xs.map (fun a => c * a)

/-- All-zero vector of width `n` (the appended `zero_feat` row,
src/models.py lines 120 and 168). -/
def zeroVec (n : ℕ) : List ℚ := List.replicate n 0

/-- Sum of a list of width-`n` vectors (`sum(dim=1)` over the context
slots, src/models.py lines 123 and 184). -/
def vecSum (n : ℕ) (vs : List (List ℚ)) : List ℚ := vs.foldr addVec (zeroVec n)

/-- Resolution of one integer index into a table of `len` rows, following
the indexing convention of the tensor library used by the source: a
negative index `i` addresses row `len + i`, and resolution outside
`[-len, len)` is an index error (`none`).  The sentinel `-1` therefore
resolves to the last row of the padded table, which is the appended zero
row. -/
def torchIdx (len : ℕ) (idx : ℤ) : Option ℕ :=
  let j : ℤ := if idx < 0 then (len : ℤ) + idx else idx
  if 0 ≤ j ∧ j < (len : ℤ) then some j.toNat else none

/-- Gather of one context row from the padded own-feature table
(src/models.py lines 120-122 and 168-170): the table is `H` with one
width-`F` zero row appended, and the index is resolved by `torchIdx`.
The `none` case of `torchIdx` is an index error in the source; the total
function returns the zero row there, and the checked variants below
return `none` for the whole forward pass in that case. -/
def gatherRow (F : ℕ) (H : List (List ℚ)) (idx : ℤ) : List ℚ :=
  let padded := H ++ [zeroVec F]
  match torchIdx padded.length idx with
  | some j => padded.getD j (zeroVec F)
  | none => zeroVec F

/-- Check that every entry of the context-index table resolves inside the
padded table of `len` rows; this is exactly the set of inputs on which the
source's gathers do not raise an index error. -/
def contextIndicesInRange (len : ℕ) (C : List (List ℤ)) : Bool :=
  C.all (fun row => row.all (fun idx => (torchIdx len idx).isSome))

/-! ### The non-attention context path (src/models.py lines 118-123). -/

/-- One row of `context_representation` in the `use_attention = False`
branch (src/models.py lines 119-123): the gathered context rows (sentinels
mapping to the zero row) are summed and divided elementwise by the number
of entries different from `-1` in the box's context row.  Rational
division by zero yields `0` where the source would produce a NaN; every
theorem below assumes at least one valid neighbor, where the two agree. -/
def contextMeanRow (F : ℕ) (H : List (List ℚ)) (ci : List ℤ) : List ℚ :=
  let s := vecSum F (ci.map (gatherRow F H))
  s.map (fun x => x / ((ci.countP (fun idx => decide (idx ≠ -1)) : ℕ) : ℚ))

/-- The whole non-attention context tensor, one row per box. -/
def contextMean (F : ℕ) (H : List (List ℚ)) (C : List (List ℤ)) : List (List ℚ) :=
  C.map (contextMeanRow F H)

/-- Run of the non-attention context path including the indexing
behaviour: `none` models the index error raised by the gather of
src/models.py line 122 when some context index falls outside the padded
table, and `some` is the computed tensor otherwise.  No other validation
is performed by the source. -/
def contextMeanRun (F : ℕ) (H : List (List ℚ)) (C : List (List ℤ)) :
    Option (List (List ℚ)) :=
  if contextIndicesInRange (H.length + 1) C then some (contextMean F H C) else none

/-! ### `GraphAttentionLayer` (src/models.py lines 134-187). -/

/-- Learned parameters of `GraphAttentionLayer.__init__` (src/models.py
lines 138-152): the two bias-free projections `W_i` and `W_j` of shape
`hidden_dim × in_features`, the attention layer's weight row (length
`2 * hidden_dim`) and bias, and the LeakyReLU slope `alpha`. -/
structure GATParams where
  Wi : List (List ℚ)
  Wj : List (List ℚ)
  aWeight : List ℚ
  aBias : ℚ
  alpha : ℚ

/-- `nn.LeakyReLU(alpha)` (src/models.py line 152). -/
def leakyReLU (alpha x : ℚ) : ℚ := if 0 ≤ x then x else alpha * x

/-- The very large negative constant substituted at sentinel slots
(src/models.py line 180, `-9e15`). -/
def minusInf : ℚ := -9000000000000000

/-- Softmax over a list of scores with the exponential abstracted as `E`
(src/models.py line 182, `torch.softmax(attention_wts, dim=1)` per box
row): mathematically `softmax(s)_k = exp(s_k) / Σ_m exp(s_m)`. -/
def softmaxWith (E : ℚ → ℚ) (scores : List ℚ) : List ℚ :=
  scores.map (fun s => E s / (scores.map E).sum)

/-- Raw attention score of one (box, slot) pair before masking
(src/models.py lines 177-178): the attention layer applied to the
concatenation of the two projections, then LeakyReLU. -/
def rawScore (p : GATParams) (whi whj : List ℚ) : ℚ :=
  leakyReLU p.alpha (dot p.aWeight (whi ++ whj) + p.aBias)

/-- Masked pre-softmax scores of one box row (src/models.py lines
172-181): the raw score where the context index is nonnegative and
`minusInf` where it is negative (`torch.where(context_indices >= 0, ...)`). -/
def gatRowScores (p : GATParams) (F : ℕ) (H : List (List ℚ))
    (hi : List ℚ) (ci : List ℤ) : List ℚ :=
  let whi := matVec p.Wi hi
  ci.map (fun idx =>
    if 0 ≤ idx then rawScore p whi (matVec p.Wj (gatherRow F H idx)) else minusInf)

/-- Attention weights of one box row (src/models.py line 182). -/
def gatRowWeights (E : ℚ → ℚ) (p : GATParams) (F : ℕ) (H : List (List ℚ))
    (hi : List ℚ) (ci : List ℤ) : List ℚ :=
  softmaxWith E (gatRowScores p F H hi ci)

/-- One output row of `GraphAttentionLayer.forward` (src/models.py line
184): the weighted sum over the context slots of the projected gathered
context rows. -/
def gatRow (E : ℚ → ℚ) (p : GATParams) (F : ℕ) (H : List (List ℚ))
    (hi : List ℚ) (ci : List ℤ) : List ℚ :=
  vecSum p.Wj.length
    (List.zipWith (fun w idx => scaleVec w (matVec p.Wj (gatherRow F H idx)))
      (gatRowWeights E p F H hi ci) ci)

/-- `GraphAttentionLayer.forward` (src/models.py lines 160-187): one
output row per box, from the box's own features and its context row. -/
def gatForward (E : ℚ → ℚ) (p : GATParams) (F : ℕ) (H : List (List ℚ))
    (C : List (List ℤ)) : List (List ℚ) :=
  (H.zip C).map (fun pr => gatRow E p F H pr.1 pr.2)

/-- Run of `GraphAttentionLayer.forward` including the indexing behaviour
of the gather at src/models.py line 170, exactly as in `contextMeanRun`. -/
def gatForwardRun (E : ℚ → ℚ) (p : GATParams) (F : ℕ) (H : List (List ℚ))
    (C : List (List ℤ)) : Option (List (List ℚ)) :=
  if contextIndicesInRange (H.length + 1) C then some (gatForward E p F H C) else none

/-- The plain mean of valid neighbor own-features described by the spec's
words for the non-attention mode: the sum of the own-feature rows at the
non-sentinel context indices, divided by the number of non-sentinel
entries of the context row.  Stated from the spec for comparison with
`contextMeanRow`, which is stated from the source. -/
def validNeighborMean (F : ℕ) (H : List (List ℚ)) (ci : List ℤ) : List ℚ :=
  let valid := ci.filter (fun idx => decide (idx ≠ -1))
  (vecSum F (valid.map (fun idx => H.getD idx.toNat (zeroVec F)))).map
    (fun x => x / ((valid.length : ℕ) : ℚ))

/-- A concrete configuration with context disabled and the default widths
of `VAMWOD.__init__` (`hidden_dim = 384`, `bbox_hidden_dim = 32`,
`n_additional_feat = 0`, and the resnet18 visual width
`128 * 7 * 7 = 6272` for a `(7, 7)` roi grid). -/
def cfgNoContext : VAMWODConfig :=
  { nVisualFeat := 6272, useContext := false, useAttention := true,
    hiddenDim := 384, useBboxFeat := true, bboxHiddenDim := 32,
    nAdditionalFeat := 0 }

/-! ## Theorems -/

/-- Claim C2 (evidence of the code defect): with `use_context = False` the
decoder's declared input width is not the own-feature width.  Line 71 of
src/models.py computes `n_total_feat = n_feat + hidden_dim` unconditionally,
so the decoder declares `n_feat + 384` columns while `forward` (lines
124-128) builds a `combined_feat` of exactly `n_feat` columns; the two
disagree, so the forward pass cannot even run in this configuration. -/
theorem C2_decoder_width_mismatch :
    cfgNoContext.useContext = false ∧
    decoderInWidth cfgNoContext = nFeat cfgNoContext + 384 ∧
    combinedFeatWidth cfgNoContext = nFeat cfgNoContext ∧
    decoderInWidth cfgNoContext ≠ combinedFeatWidth cfgNoContext := by
  decide

theorem length_addBatchIndex (i : ℕ) (boxes : List (List ℚ)) :
    (addBatchIndex i boxes).length = boxes.length := by
  simp [addBatchIndex]

theorem length_collateBoxesFrom (i : ℕ) (bs : List (List (List ℚ))) :
    (collateBoxesFrom i bs).length = (bs.map List.length).sum := by
  induction bs generalizing i with
  | nil => rfl
  | cons b rest ih => simp [collateBoxesFrom, length_addBatchIndex, ih]

theorem collateBoxesFrom_getElem (bs : List (List (List ℚ))) :
    ∀ k i j : ℕ, ∀ boxesI : List (List ℚ), ∀ b : List ℚ,
      bs[i]? = some boxesI → boxesI[j]? = some b →
        (collateBoxesFrom k bs)[boxCountBefore bs i + j]? =
          some (((k + i : ℕ) : ℚ) :: b) := by
  induction bs with
  | nil => intro k i j boxesI b hI hj; simp at hI
  | cons hd rest ih =>
    intro k i j boxesI b hI hj
    cases i with
    | zero =>
      obtain rfl : hd = boxesI := by simpa using hI
      have hjlen : j < hd.length := by
        by_contra hc
        rw [List.getElem?_eq_none (Nat.le_of_not_lt hc)] at hj
        exact Option.noConfusion hj
      have hlen : j < (addBatchIndex k hd).length := by
        rwa [length_addBatchIndex]
      have h0 : boxCountBefore (hd :: rest) 0 = 0 := rfl
      rw [h0, Nat.zero_add]
      show (addBatchIndex k hd ++ collateBoxesFrom (k + 1) rest)[j]? = _
      rw [List.getElem?_append_left hlen]
      simp [addBatchIndex, hj]
    | succ i' =>
      have hI' : rest[i']? = some boxesI := by simpa using hI
      have hb : boxCountBefore (hd :: rest) (i' + 1) =
          hd.length + boxCountBefore rest i' := by
        simp [boxCountBefore, List.take_succ_cons]
      rw [hb]
      show (addBatchIndex k hd ++ collateBoxesFrom (k + 1) rest)[_]? = _
      rw [List.getElem?_append_right (by rw [length_addBatchIndex]; omega)]
      have harith : hd.length + boxCountBefore rest i' + j -
          (addBatchIndex k hd).length = boxCountBefore rest i' + j := by
        rw [length_addBatchIndex]; omega
      rw [harith]
      have ihh := ih (k + 1) i' j boxesI b hI' hj
      have e2 : (k + 1) + i' = k + (i' + 1) := by omega
      rw [e2] at ihh
      exact ihh

/-- Claim C7: the batch assembler returns a flat box tensor with one row
per input box (total count the sum of the per-sample counts); the row at
flat position `boxCountBefore i + j` — sample `i`'s rows coming after all
rows of samples before it, in within-sample order — is sample `i`'s box
`j` with the owning index `i` prepended as column 0; and the flat label
tensor is the concatenation of the per-sample label tensors. -/
theorem C7_collate_batch (batch : List (List (List ℚ) × List ℤ)) :
    (customCollateFn batch).1.length = (batch.map (fun s => s.1.length)).sum ∧
    (customCollateFn batch).2 = (batch.map Prod.snd).flatten ∧
    ∀ i j : ℕ, ∀ boxesI : List (List ℚ), ∀ b : List ℚ,
      (batch.map Prod.fst)[i]? = some boxesI → boxesI[j]? = some b →
        (customCollateFn batch).1[boxCountBefore (batch.map Prod.fst) i + j]? =
          some ((i : ℚ) :: b) := by
  refine ⟨?_, rfl, ?_⟩
  · simp only [customCollateFn, collateBoxes, length_collateBoxesFrom,
      List.map_map]
    rfl
  · intro i j boxesI b hI hj
    have := collateBoxesFrom_getElem (batch.map Prod.fst) 0 i j boxesI b hI hj
    simpa using this

/-- Witness for claim C7 at the spec's scenario batch: sample A with two
boxes and sample B with one box; position of sample B's box checked. -/
theorem C7_collate_batch_witness :
    (([([[0,0,10,10],[5,5,15,15]], [1,0]), ([[1,1,4,4]], [2])] :
        List (List (List ℚ) × List ℤ)).map Prod.fst)[1]? = some [[1,1,4,4]] ∧
    ([[(1:ℚ),1,4,4]] : List (List ℚ))[0]? = some [1,1,4,4] ∧
    (customCollateFn [([[0,0,10,10],[5,5,15,15]], [1,0]),
        ([[1,1,4,4]], [2])]).1[boxCountBefore
          (([([[0,0,10,10],[5,5,15,15]], [1,0]), ([[1,1,4,4]], [2])] :
            List (List (List ℚ) × List ℤ)).map Prod.fst) 1 + 0]? =
      some ((1 : ℚ) :: [1,1,4,4]) :=
  ⟨rfl, rfl,
    (C7_collate_batch [([[0,0,10,10],[5,5,15,15]], [1,0]),
      ([[1,1,4,4]], [2])]).2.2 1 0 [[1,1,4,4]] [1,1,4,4] rfl rfl⟩

theorem filter_addBatchIndex_self_tag (i : ℕ) (boxes : List (List ℚ)) :
    (addBatchIndex i boxes).filter (fun r => decide (r.headD 0 = (i : ℚ))) =
      addBatchIndex i boxes := by
  rw [List.filter_eq_self]
  intro r hr
  obtain ⟨b, _, rfl⟩ := List.mem_map.mp hr
  simp

theorem filter_addBatchIndex_ne_tag (t i : ℕ) (hti : t ≠ i)
    (boxes : List (List ℚ)) :
    (addBatchIndex t boxes).filter (fun r => decide (r.headD 0 = (i : ℚ))) = [] := by
  rw [List.filter_eq_nil_iff]
  intro r hr
  obtain ⟨b, _, rfl⟩ := List.mem_map.mp hr
  simp [Nat.cast_inj, hti]

theorem filter_collateBoxesFrom_lt (i : ℕ) (bs : List (List (List ℚ))) :
    ∀ k, i < k →
      (collateBoxesFrom k bs).filter (fun r => decide (r.headD 0 = (i : ℚ))) = [] := by
  induction bs with
  | nil => intro k _; rfl
  | cons hd rest ih =>
    intro k hk
    rw [collateBoxesFrom, List.filter_append,
      filter_addBatchIndex_ne_tag k i (by omega), ih (k + 1) (by omega)]
    rfl

theorem tail_addBatchIndex (t : ℕ) (boxes : List (List ℚ)) :
    (addBatchIndex t boxes).map List.tail = boxes := by
  rw [addBatchIndex, List.map_map]
  have h : (List.tail ∘ fun b : List ℚ => ((t : ℚ) :: b)) = id := rfl
  rw [h, List.map_id]

theorem splitByOwner_collateBoxesFrom (bs : List (List (List ℚ))) :
    ∀ i k : ℕ, ∀ boxesI : List (List ℚ), bs[i]? = some boxesI →
      splitByOwner (collateBoxesFrom k bs) (k + i) = boxesI := by
  induction bs with
  | nil => intro i k boxesI h; simp at h
  | cons hd rest ih =>
    intro i k boxesI h
    cases i with
    | zero =>
      obtain rfl : hd = boxesI := by simpa using h
      show splitByOwner (addBatchIndex k hd ++ collateBoxesFrom (k + 1) rest)
        (k + 0) = hd
      unfold splitByOwner
      rw [Nat.add_zero, List.filter_append, filter_addBatchIndex_self_tag,
        filter_collateBoxesFrom_lt k rest (k + 1) (by omega), List.append_nil,
        tail_addBatchIndex]
    | succ i' =>
      have h' : rest[i']? = some boxesI := by simpa using h
      have e : k + (i' + 1) = (k + 1) + i' := by omega
      rw [e]
      show splitByOwner (addBatchIndex k hd ++ collateBoxesFrom (k + 1) rest)
        ((k + 1) + i') = boxesI
      have := ih i' (k + 1) boxesI h'
      unfold splitByOwner at this ⊢
      rw [List.filter_append, filter_addBatchIndex_ne_tag k ((k + 1) + i') (by omega),
        List.nil_append]
      exact this

/-- Claim C8: assembling per-image box lists into a flat batch and then
splitting the flat rows back by the owning-index column (dropping that
column) returns exactly the original per-image box list, for every image
index of the batch. -/
theorem C8_round_trip (batchBoxes : List (List (List ℚ))) (i : ℕ)
    (boxesI : List (List ℚ)) (hI : batchBoxes[i]? = some boxesI) :
    splitByOwner (collateBoxes batchBoxes) i = boxesI := by
  have := splitByOwner_collateBoxesFrom batchBoxes i 0 boxesI hI
  simpa [collateBoxes] using this

/-- Witness for claim C8 at the spec's scenario batch, image index 1. -/
theorem C8_round_trip_witness :
    ([[[(0:ℚ),0,10,10],[5,5,15,15]], [[1,1,4,4]]] :
        List (List (List ℚ)))[1]? = some [[1,1,4,4]] ∧
    splitByOwner (collateBoxes [[[(0:ℚ),0,10,10],[5,5,15,15]], [[1,1,4,4]]]) 1 =
      [[1,1,4,4]] :=
  ⟨rfl, C8_round_trip [[[(0:ℚ),0,10,10],[5,5,15,15]], [[1,1,4,4]]] 1 [[1,1,4,4]] rfl⟩

/-- Claim C9: the loader returns the 3 ground-truth boxes first, then the
kept background boxes, every row converted from `[x, y, w, h]` stored form
to corner form with bottom-right = top-left + width/height; the labels are
`[1, 2, 3]` followed by one `0` per kept background box, so each of the
labels 1, 2, 3 appears exactly once, label 0 appears once per background
box, and the box count is `3 +` the background count. -/
theorem C9_loader (gtBoxes otherBoxes shuffledBg : List (List ℚ))
    (maxBgBoxes : ℤ) (hgt : gtBoxes.length = 3) :
    (webGetItem gtBoxes otherBoxes shuffledBg maxBgBoxes).1 =
      gtBoxes.map toCorners ++
        (bgKept otherBoxes shuffledBg maxBgBoxes).map toCorners ∧
    (∀ x y w h : ℚ, toCorners [x, y, w, h] = [x, y, x + w, y + h]) ∧
    (webGetItem gtBoxes otherBoxes shuffledBg maxBgBoxes).2 =
      [1, 2, 3] ++ List.replicate (bgKept otherBoxes shuffledBg maxBgBoxes).length 0 ∧
    (webGetItem gtBoxes otherBoxes shuffledBg maxBgBoxes).2.count 1 = 1 ∧
    (webGetItem gtBoxes otherBoxes shuffledBg maxBgBoxes).2.count 2 = 1 ∧
    (webGetItem gtBoxes otherBoxes shuffledBg maxBgBoxes).2.count 3 = 1 ∧
    (webGetItem gtBoxes otherBoxes shuffledBg maxBgBoxes).2.count 0 =
      (bgKept otherBoxes shuffledBg maxBgBoxes).length ∧
    (webGetItem gtBoxes otherBoxes shuffledBg maxBgBoxes).1.length =
      3 + (bgKept otherBoxes shuffledBg maxBgBoxes).length := by
  refine ⟨?_, ?_, rfl, ?_, ?_, ?_, ?_, ?_⟩
  · simp [webGetItem, List.map_append]
  · intro x y w h; rfl
  · simp [webGetItem, List.count_append, List.count_replicate, List.count_cons]
  · simp [webGetItem, List.count_append, List.count_replicate, List.count_cons]
  · simp [webGetItem, List.count_append, List.count_replicate, List.count_cons]
  · simp [webGetItem, List.count_append, List.count_replicate, List.count_cons]
  · simp [webGetItem, hgt, Nat.add_comm]

/-- Witness for claim C9: three ground-truth boxes, one background box,
no cap. -/
theorem C9_loader_witness :
    ([[(0:ℚ),0,2,2],[1,1,2,2],[3,3,1,1]] : List (List ℚ)).length = 3 ∧
    (webGetItem [[(0:ℚ),0,2,2],[1,1,2,2],[3,3,1,1]] [[9,9,1,1]] [[9,9,1,1]]
        (-1)).2.count 0 =
      (bgKept [[(9:ℚ),9,1,1]] [[9,9,1,1]] (-1)).length :=
  ⟨rfl,
    (C9_loader [[(0:ℚ),0,2,2],[1,1,2,2],[3,3,1,1]] [[9,9,1,1]] [[9,9,1,1]]
      (-1) rfl).2.2.2.2.2.2.1⟩

/-- Claim C10: the background cap.  With a positive cap `k` and at least
`k` available background boxes, exactly `k` are kept; with a positive cap
and fewer available, all available boxes are kept (as a permutation, since
the source shuffles before truncating); with cap `-1` the list is kept
unchanged; and the ground-truth boxes are never subsampled: the returned
tensor always starts with all of them. -/
theorem C10_bg_cap (gtBoxes otherBoxes shuffledBg : List (List ℚ))
    (maxBgBoxes : ℤ) (hperm : shuffledBg.Perm otherBoxes) :
    (0 < maxBgBoxes → maxBgBoxes.toNat ≤ otherBoxes.length →
      (bgKept otherBoxes shuffledBg maxBgBoxes).length = maxBgBoxes.toNat) ∧
    (0 < maxBgBoxes → otherBoxes.length < maxBgBoxes.toNat →
      (bgKept otherBoxes shuffledBg maxBgBoxes).Perm otherBoxes) ∧
    (maxBgBoxes = -1 → bgKept otherBoxes shuffledBg maxBgBoxes = otherBoxes) ∧
    (webGetItem gtBoxes otherBoxes shuffledBg maxBgBoxes).1 =
      gtBoxes.map toCorners ++
        (bgKept otherBoxes shuffledBg maxBgBoxes).map toCorners := by
  refine ⟨?_, ?_, ?_, ?_⟩
  · intro h1 h2
    rw [bgKept, if_pos h1, List.length_take, hperm.length_eq]
    omega
  · intro h1 h2
    rw [bgKept, if_pos h1,
      List.take_of_length_le (by rw [hperm.length_eq]; omega)]
    exact hperm
  · intro h
    subst h
    rw [bgKept, if_neg (by decide)]
  · simp [webGetItem, List.map_append]

/-- Witness for claim C10: two background boxes, shuffled, cap 1. -/
theorem C10_bg_cap_witness :
    (([[2,2,2,2],[1,1,1,1]] : List (List ℚ)).Perm [[1,1,1,1],[2,2,2,2]]) ∧
    (0 < (1 : ℤ) → (1 : ℤ).toNat ≤ ([[(1:ℚ),1,1,1],[2,2,2,2]] : List (List ℚ)).length →
      (bgKept [[(1:ℚ),1,1,1],[2,2,2,2]] [[2,2,2,2],[1,1,1,1]] 1).length = (1 : ℤ).toNat) :=
  ⟨List.Perm.swap _ _ _,
    (C10_bg_cap [] [[(1:ℚ),1,1,1],[2,2,2,2]] [[2,2,2,2],[1,1,1,1]] 1
      (List.Perm.swap _ _ _)).1⟩

theorem torchIdx_isSome_iff (len : ℕ) (idx : ℤ) :
    (torchIdx len idx).isSome = true ↔ -(len : ℤ) ≤ idx ∧ idx < (len : ℤ) := by
  by_cases h : idx < 0
  · by_cases h2 : 0 ≤ (len : ℤ) + idx ∧ (len : ℤ) + idx < (len : ℤ)
    · simp only [torchIdx, if_pos h, if_pos h2, Option.isSome_some, true_iff]
      omega
    · simp only [torchIdx, if_pos h, if_neg h2, Option.isSome_none,
        Bool.false_eq_true, false_iff]
      omega
  · by_cases h2 : 0 ≤ idx ∧ idx < (len : ℤ)
    · simp only [torchIdx, if_neg h, if_pos h2, Option.isSome_some, true_iff]
      omega
    · simp only [torchIdx, if_neg h, if_neg h2, Option.isSome_none,
        Bool.false_eq_true, false_iff]
      omega

theorem contextIndicesInRange_iff (len : ℕ) (C : List (List ℤ)) :
    contextIndicesInRange len C = true ↔
      ∀ row ∈ C, ∀ idx ∈ row, -(len : ℤ) ≤ idx ∧ idx < (len : ℤ) := by
  simp [contextIndicesInRange, List.all_eq_true, torchIdx_isSome_iff]

theorem contextIndicesInRange_eq_false_iff (H : List (List ℚ)) (C : List (List ℤ)) :
    contextIndicesInRange (H.length + 1) C = false ↔
      ∃ row ∈ C, ∃ idx ∈ row,
        idx < -((H.length : ℤ) + 1) ∨ (H.length : ℤ) + 1 ≤ idx := by
  rw [← Bool.not_eq_true, contextIndicesInRange_iff]
  push_neg
  constructor
  · rintro ⟨row, hrow, idx, hidx, hbad⟩
    refine ⟨row, hrow, idx, hidx, ?_⟩
    push_cast at hbad ⊢
    omega
  · rintro ⟨row, hrow, idx, hidx, hbad⟩
    refine ⟨row, hrow, idx, hidx, ?_⟩
    push_cast at hbad ⊢
    omega

/-- Claim C3 (amended): the core performs no validation of the
context-index table.  In both context paths the forward run fails (an
index error in the gather) exactly when some index falls outside
`[-(N + 1), N]`, the index range of the padded `N + 1`-row feature table;
every index inside that range — the sentinel `-1`, any other negative
index (silently wrapping around to a real box's row), the padded row index
`N`, and in particular any cross-image index — is silently consumed in the
feature aggregation, with no rejection. -/
theorem C3_no_validation (E : ℚ → ℚ) (p : GATParams) (F : ℕ)
    (H : List (List ℚ)) (C : List (List ℤ)) :
    (contextMeanRun F H C = none ↔
      ∃ row ∈ C, ∃ idx ∈ row,
        idx < -((H.length : ℤ) + 1) ∨ (H.length : ℤ) + 1 ≤ idx) ∧
    (gatForwardRun E p F H C = none ↔
      ∃ row ∈ C, ∃ idx ∈ row,
        idx < -((H.length : ℤ) + 1) ∨ (H.length : ℤ) + 1 ≤ idx) := by
  have key : ∀ out : List (List ℚ), ∀ b : Bool,
      b = contextIndicesInRange (H.length + 1) C →
      ((if contextIndicesInRange (H.length + 1) C then some out else none) = none ↔
        ∃ row ∈ C, ∃ idx ∈ row,
          idx < -((H.length : ℤ) + 1) ∨ (H.length : ℤ) + 1 ≤ idx) := by
    intro out b hb
    cases b with
    | true =>
      rw [if_pos hb.symm]
      refine iff_of_false (by simp) ?_
      intro hex
      have hfalse := (contextIndicesInRange_eq_false_iff H C).mpr hex
      rw [← hb] at hfalse
      exact absurd hfalse (by decide)
    | false =>
      have hne : ¬ (contextIndicesInRange (H.length + 1) C = true) := by
        rw [← hb]; decide
      rw [if_neg hne]
      exact iff_of_true rfl ((contextIndicesInRange_eq_false_iff H C).mp hb.symm)
  exact ⟨key (contextMean F H C) _ rfl, key (gatForward E p F H C) _ rfl⟩

/-- Counterexample to claim C3 as stated: a batch of two boxes, box 0
owned by image 0 and box 1 by image 1 (owners `[0, 1]`).  The context
table `[[1], [0]]` is pure cross-image leakage, yet the non-attention
context path computes `[[2], [1]]` — each box's "context" is the other
image's feature — instead of rejecting.  Likewise index `2`, out of the
claim's range `[-1, N-1] = [-1, 1]`, is silently accepted (it addresses
the padded zero row), producing `[[0], [1]]`. -/
theorem C3_counterexample :
    ([(0 : ℚ), 1].getD 1 0 ≠ [(0 : ℚ), 1].getD 0 0) ∧
    contextMeanRun 1 [[1], [2]] [[1], [0]] = some [[2], [1]] ∧
    ((1 : ℤ) < 2) ∧
    contextMeanRun 1 [[1], [2]] [[2], [0]] = some [[0], [1]] := by
  refine ⟨by norm_num, ?_, by decide, ?_⟩
  · rw [contextMeanRun, if_pos (by decide)]
    norm_num [contextMean, contextMeanRow, vecSum, addVec, zeroVec, gatherRow,
      torchIdx, List.countP_cons, List.countP_nil]
  · rw [contextMeanRun, if_pos (by decide)]
    norm_num [contextMean, contextMeanRow, vecSum, addVec, zeroVec, gatherRow,
      torchIdx, List.countP_cons, List.countP_nil,
      show Int.toNat 2 = 2 from rfl]

theorem length_zeroVec (n : ℕ) : (zeroVec n).length = n := by
  simp [zeroVec]

theorem dot_zeroVec (r : List ℚ) (F : ℕ) : dot r (zeroVec F) = 0 := by
  induction r generalizing F with
  | nil => rfl
  | cons a r ih =>
    cases F with
    | zero => rfl
    | succ m =>
      show (List.zipWith (fun a b => a * b) (a :: r) (0 :: zeroVec m)).sum = 0
      rw [List.zipWith_cons_cons, List.sum_cons, mul_zero, zero_add]
      exact ih m

theorem matVec_zeroVec (M : List (List ℚ)) (F : ℕ) :
    matVec M (zeroVec F) = zeroVec M.length := by
  rw [matVec, List.map_congr_left (fun r _ => dot_zeroVec r F)]
  simp [zeroVec, List.map_const']

theorem scaleVec_zeroVec (c : ℚ) (n : ℕ) : scaleVec c (zeroVec n) = zeroVec n := by
  simp [scaleVec, zeroVec, List.map_replicate]

theorem addVec_zeroVec_left (v : List ℚ) (n : ℕ) (hv : v.length = n) :
    addVec (zeroVec n) v = v := by
  induction v generalizing n with
  | nil => subst hv; rfl
  | cons a v ih =>
    subst hv
    show addVec (0 :: zeroVec v.length) (a :: v) = a :: v
    rw [addVec, List.zipWith_cons_cons, zero_add]
    exact congrArg _ (ih v.length rfl)

theorem length_addVec (xs ys : List ℚ) :
    (addVec xs ys).length = min xs.length ys.length := by
  simp [addVec]

theorem length_vecSum (n : ℕ) (vs : List (List ℚ)) (h : ∀ v ∈ vs, v.length = n) :
    (vecSum n vs).length = n := by
  induction vs with
  | nil => exact length_zeroVec n
  | cons v rest ih =>
    show (addVec v (vecSum n rest)).length = n
    rw [length_addVec, h v (List.mem_cons_self v rest),
      ih (fun u hu => h u (List.mem_cons_of_mem v hu)), Nat.min_self]

theorem vecSum_all_zero (n : ℕ) (vs : List (List ℚ)) (h : ∀ v ∈ vs, v = zeroVec n) :
    vecSum n vs = zeroVec n := by
  induction vs with
  | nil => rfl
  | cons v rest ih =>
    show addVec v (vecSum n rest) = zeroVec n
    rw [h v (List.mem_cons_self v rest),
      ih (fun u hu => h u (List.mem_cons_of_mem v hu)),
      addVec_zeroVec_left (zeroVec n) n (length_zeroVec n)]

theorem torchIdx_neg (len : ℕ) (idx : ℤ) (h1 : idx < 0) (h2 : -(len : ℤ) ≤ idx) :
    torchIdx len idx = some ((len : ℤ) + idx).toNat := by
  simp only [torchIdx, h1, if_true]
  rw [if_pos (by omega)]

theorem torchIdx_nonneg (len : ℕ) (idx : ℤ) (h1 : 0 ≤ idx) (h2 : idx < (len : ℤ)) :
    torchIdx len idx = some idx.toNat := by
  simp only [torchIdx, show ¬ (idx < 0) from by omega, if_false]
  rw [if_pos ⟨h1, h2⟩]

theorem gatherRow_neg_one (F : ℕ) (H : List (List ℚ)) :
    gatherRow F H (-1) = zeroVec F := by
  have hlen : (H ++ [zeroVec F]).length = H.length + 1 := by simp
  simp only [gatherRow, hlen]
  rw [torchIdx_neg (H.length + 1) (-1) (by decide) (by push_cast; omega)]
  have he : ((H.length + 1 : ℕ) : ℤ) + -1 = ((H.length : ℕ) : ℤ) := by push_cast; omega
  rw [he, Int.toNat_ofNat]
  show (H ++ [zeroVec F]).getD H.length (zeroVec F) = zeroVec F
  rw [List.getD_append_right H [zeroVec F] (zeroVec F) H.length (Nat.le_refl _),
    Nat.sub_self]
  rfl

theorem gatherRow_valid (F : ℕ) (H : List (List ℚ)) (idx : ℤ)
    (h1 : 0 ≤ idx) (h2 : idx < (H.length : ℤ)) :
    gatherRow F H idx = H.getD idx.toNat (zeroVec F) := by
  have hlen : (H ++ [zeroVec F]).length = H.length + 1 := by simp
  simp only [gatherRow, hlen]
  rw [torchIdx_nonneg (H.length + 1) idx h1 (by push_cast; omega)]
  show (H ++ [zeroVec F]).getD idx.toNat (zeroVec F) = H.getD idx.toNat (zeroVec F)
  exact List.getD_append H [zeroVec F] (zeroVec F) idx.toNat (by omega)

theorem exists_of_mem_zipWith {α β γ : Type} (f : α → β → γ) (as : List α)
    (bs : List β) (x : γ) (hx : x ∈ List.zipWith f as bs) :
    ∃ a b, a ∈ as ∧ b ∈ bs ∧ x = f a b := by
  induction as generalizing bs with
  | nil => simp at hx
  | cons a as ih =>
    cases bs with
    | nil => simp at hx
    | cons b bs =>
      rw [List.zipWith_cons_cons] at hx
      rcases List.mem_cons.mp hx with h | h
      · exact ⟨a, b, List.mem_cons_self a as, List.mem_cons_self b bs, h⟩
      · obtain ⟨a', b', ha', hb', he⟩ := ih bs h
        exact ⟨a', b', List.mem_cons_of_mem a ha', List.mem_cons_of_mem b hb', he⟩

/-- Claim C6: a box whose context row is all sentinels gets the all-zero
output row from the attention layer: every sentinel gathers the appended
zero row, the bias-free neighbor projection maps it to the zero vector,
and the softmax-weighted sum of zero vectors is zero whatever the
(uniform) weights are. -/
theorem C6_all_sentinel_zero_row (E : ℚ → ℚ) (p : GATParams) (F : ℕ)
    (H : List (List ℚ)) (hi : List ℚ) (ci : List ℤ)
    (hsent : ∀ idx ∈ ci, idx = -1) :
    gatRow E p F H hi ci = zeroVec p.Wj.length := by
  rw [gatRow]
  apply vecSum_all_zero
  intro v hv
  obtain ⟨w, idx, _, hidx, he⟩ := exists_of_mem_zipWith _ _ _ v hv
  rw [he, hsent idx hidx, gatherRow_neg_one, matVec_zeroVec, scaleVec_zeroVec]

/-- Witness for claim C6: a two-slot all-sentinel context row. -/
theorem C6_all_sentinel_zero_row_witness :
    (∀ idx ∈ ([-1, -1] : List ℤ), idx = -1) ∧
    gatRow (fun _ => 1) ⟨[[1]], [[1]], [0, 0], 0, 1/5⟩ 1 [[5]] [5] [-1, -1] =
      zeroVec ([[(1 : ℚ)]] : List (List ℚ)).length :=
  ⟨by decide,
    C6_all_sentinel_zero_row (fun _ => 1) ⟨[[1]], [[1]], [0, 0], 0, 1/5⟩ 1
      [[5]] [5] [-1, -1] (by decide)⟩

theorem vecSum_gather_filter (F : ℕ) (H : List (List ℚ)) (ci : List ℤ)
    (hF : ∀ h ∈ H, h.length = F)
    (hrange : ∀ idx ∈ ci, -1 ≤ idx ∧ idx < (H.length : ℤ)) :
    vecSum F (ci.map (gatherRow F H)) =
      vecSum F ((ci.filter (fun idx => decide (idx ≠ -1))).map
        (fun idx => H.getD idx.toNat (zeroVec F))) := by
  induction ci with
  | nil => rfl
  | cons idx rest ih =>
    have hr := hrange idx (List.mem_cons_self idx rest)
    have ihh := ih (fun i hi => hrange i (List.mem_cons_of_mem idx hi))
    by_cases hidx : idx = -1
    · subst hidx
      show addVec (gatherRow F H (-1)) (vecSum F (rest.map (gatherRow F H))) = _
      rw [gatherRow_neg_one, ihh,
        show ((-1 : ℤ) :: rest).filter (fun i => decide (i ≠ -1)) =
          rest.filter (fun i => decide (i ≠ -1)) from by simp]
      apply addVec_zeroVec_left
      apply length_vecSum
      intro v hv
      obtain ⟨i, hi, rfl⟩ := List.mem_map.mp hv
      have hmem := List.mem_filter.mp hi
      have hr2 := hrange i (List.mem_cons_of_mem _ hmem.1)
      have hne : i ≠ -1 := by simpa using hmem.2
      have hlt : i.toNat < H.length := by omega
      rw [List.getD_eq_getElem _ _ hlt]
      exact hF _ (List.getElem_mem hlt)
    · have h0 : 0 ≤ idx := by omega
      show addVec (gatherRow F H idx) (vecSum F (rest.map (gatherRow F H))) = _
      rw [gatherRow_valid F H idx h0 hr.2, ihh,
        show (idx :: rest).filter (fun i => decide (i ≠ -1)) =
          idx :: rest.filter (fun i => decide (i ≠ -1)) from by simp [hidx]]
      rfl

/-- Claim C5: in the non-attention context mode, a box's context
representation is the sum of the own-feature rows gathered at its context
indices (sentinels contributing the all-zero row) divided by the number of
non-sentinel entries — i.e. exactly the plain mean of the valid neighbors'
own features, before any projection. -/
theorem C5_nonattention_mean (F : ℕ) (H : List (List ℚ)) (ci : List ℤ)
    (hF : ∀ h ∈ H, h.length = F)
    (hrange : ∀ idx ∈ ci, -1 ≤ idx ∧ idx < (H.length : ℤ))
    (_hvalid : ∃ idx ∈ ci, idx ≠ -1) :
    contextMeanRow F H ci = validNeighborMean F H ci := by
  simp only [contextMeanRow, validNeighborMean]
  rw [vecSum_gather_filter F H ci hF hrange, List.countP_eq_length_filter]

/-- Witness for claim C5: two boxes, a context row with one valid neighbor
and one sentinel. -/
theorem C5_nonattention_mean_witness :
    (∀ h ∈ ([[1], [2]] : List (List ℚ)), h.length = 1) ∧
    (∀ idx ∈ ([0, -1] : List ℤ), -1 ≤ idx ∧ idx < (([[1], [2]] : List (List ℚ)).length : ℤ)) ∧
    (∃ idx ∈ ([0, -1] : List ℤ), idx ≠ -1) ∧
    contextMeanRow 1 [[1], [2]] [0, -1] = validNeighborMean 1 [[1], [2]] [0, -1] :=
  ⟨by decide, by decide, ⟨0, by decide, by decide⟩,
    C5_nonattention_mean 1 [[1], [2]] [0, -1] (by decide) (by decide)
      ⟨0, by decide, by decide⟩⟩

theorem zipWith_congr_right {α β γ : Type} (f g : α → β → γ) (as : List α)
    (bs : List β) (h : ∀ b ∈ bs, ∀ a, f a b = g a b) :
    List.zipWith f as bs = List.zipWith g as bs := by
  induction as generalizing bs with
  | nil => simp
  | cons a as ih =>
    cases bs with
    | nil => simp
    | cons b bs =>
      rw [List.zipWith_cons_cons, List.zipWith_cons_cons,
        h b (List.mem_cons_self b bs) a,
        ih bs (fun u hu v => h u (List.mem_cons_of_mem b hu) v)]

theorem gatRowScores_congr (p : GATParams) (F : ℕ) (H K : List (List ℚ))
    (hi : List ℚ) (ci : List ℤ)
    (hg : ∀ idx ∈ ci, gatherRow F H idx = gatherRow F K idx) :
    gatRowScores p F H hi ci = gatRowScores p F K hi ci := by
  simp only [gatRowScores]
  exact List.map_congr_left (fun idx hidx => by rw [hg idx hidx])

theorem gatRow_congr (E : ℚ → ℚ) (p : GATParams) (F : ℕ) (H K : List (List ℚ))
    (hi : List ℚ) (ci : List ℤ)
    (hg : ∀ idx ∈ ci, gatherRow F H idx = gatherRow F K idx) :
    gatRow E p F H hi ci = gatRow E p F K hi ci := by
  simp only [gatRow, gatRowWeights]
  rw [gatRowScores_congr p F H K hi ci hg]
  exact congrArg _
    (zipWith_congr_right _ _ _ ci (fun idx hidx w => by rw [hg idx hidx]))

theorem gatRow_length (E : ℚ → ℚ) (p : GATParams) (F : ℕ) (H : List (List ℚ))
    (hi : List ℚ) (ci : List ℤ) :
    (gatRow E p F H hi ci).length = p.Wj.length := by
  rw [gatRow]
  apply length_vecSum
  intro v hv
  obtain ⟨w, idx, _, _, rfl⟩ := exists_of_mem_zipWith _ _ _ v hv
  simp [scaleVec, matVec]

theorem gatForward_getD (E : ℚ → ℚ) (p : GATParams) (F : ℕ)
    (H : List (List ℚ)) (C : List (List ℤ)) (i : ℕ)
    (h1 : i < H.length) (h2 : i < C.length) :
    (gatForward E p F H C).getD i [] =
      gatRow E p F H (H.getD i []) (C.getD i []) := by
  have hz : i < (H.zip C).length := by
    rw [List.length_zip]; omega
  have hm : i < ((H.zip C).map
      (fun pr => gatRow E p F H pr.1 pr.2)).length := by
    rwa [List.length_map]
  rw [gatForward, List.getD_eq_getElem _ _ hm, List.getElem_map,
    List.getElem_zip, List.getD_eq_getElem _ _ h1, List.getD_eq_getElem _ _ h2]

/-- Claim C4: the attention output has one row per box (given the shape
contract `N = H.length = C.length` of the forward), every row has
`hidden_dim` columns, and row `i` depends only on the box's own feature
row, its own context row, and the feature rows gathered at that context
row: two inputs agreeing on those three produce identical output rows
`i`, whatever the other boxes' features or context rows are. -/
theorem C4_row_locality (E : ℚ → ℚ) (p : GATParams) (F : ℕ)
    (H K : List (List ℚ)) (C D : List (List ℤ)) (i : ℕ)
    (hHC : H.length = C.length) (hKD : K.length = D.length)
    (hiH : i < H.length) (hiK : i < K.length)
    (hown : H.getD i [] = K.getD i [])
    (hrow : C.getD i [] = D.getD i [])
    (hg : ∀ idx ∈ C.getD i [], gatherRow F H idx = gatherRow F K idx) :
    (gatForward E p F H C).length = H.length ∧
    (∀ row ∈ gatForward E p F H C, row.length = p.Wj.length) ∧
    (gatForward E p F H C).getD i [] = (gatForward E p F K D).getD i [] := by
  refine ⟨?_, ?_, ?_⟩
  · rw [gatForward, List.length_map, List.length_zip, hHC, Nat.min_self]
  · intro row hr
    obtain ⟨pr, _, rfl⟩ := List.mem_map.mp hr
    exact gatRow_length E p F H pr.1 pr.2
  · rw [gatForward_getD E p F H C i hiH (hHC ▸ hiH),
      gatForward_getD E p F K D i hiK (hKD ▸ hiK), ← hown, ← hrow]
    exact gatRow_congr E p F H K (H.getD i []) (C.getD i []) hg

/-- Witness for claim C4: two batches agreeing on box 0's feature row, on
context row 0, and on the gathered row, but differing at box 1. -/
theorem C4_row_locality_witness :
    (([[1], [2]] : List (List ℚ)).length = ([[0], [0]] : List (List ℤ)).length) ∧
    (([[1], [3]] : List (List ℚ)).length = ([[0], [0]] : List (List ℤ)).length) ∧
    (∀ idx ∈ (([[0], [0]] : List (List ℤ)).getD 0 []),
      gatherRow 1 [[1], [2]] idx = gatherRow 1 [[1], [3]] idx) ∧
    (gatForward (fun _ => 1) ⟨[[1]], [[1]], [0, 0], 0, 1/5⟩ 1
        [[1], [2]] [[0], [0]]).getD 0 [] =
      (gatForward (fun _ => 1) ⟨[[1]], [[1]], [0, 0], 0, 1/5⟩ 1
        [[1], [3]] [[0], [0]]).getD 0 [] :=
  ⟨rfl, rfl, by decide,
    (C4_row_locality (fun _ => 1) ⟨[[1]], [[1]], [0, 0], 0, 1/5⟩ 1
      [[1], [2]] [[1], [3]] [[0], [0]] [[0], [0]] 0 rfl rfl
      (by decide) (by decide) rfl rfl (by decide)).2.2⟩

theorem sum_map_div (l : List ℚ) (f : ℚ → ℚ) (c : ℚ) :
    (l.map (fun x => f x / c)).sum = (l.map f).sum / c := by
  induction l with
  | nil => simp
  | cons a l ih => simp [ih, add_div]

theorem sum_map_pos (E : ℚ → ℚ) (hE : ∀ x, 0 < E x) (scores : List ℚ)
    (hne : scores ≠ []) : 0 < (scores.map E).sum := by
  apply List.sum_pos
  · intro x hx
    obtain ⟨s, _, rfl⟩ := List.mem_map.mp hx
    exact hE s
  · simpa using hne

theorem softmaxWith_sum (E : ℚ → ℚ) (hE : ∀ x, 0 < E x) (scores : List ℚ)
    (hne : scores ≠ []) : (softmaxWith E scores).sum = 1 := by
  rw [softmaxWith, sum_map_div]
  exact div_self (ne_of_gt (sum_map_pos E hE scores hne))

theorem softmaxWith_getD (E : ℚ → ℚ) (scores : List ℚ) (k : ℕ)
    (hk : k < scores.length) :
    (softmaxWith E scores).getD k 0 = E (scores.getD k 0) / (scores.map E).sum := by
  rw [softmaxWith]
  have hm : k < (scores.map (fun s => E s / (scores.map E).sum)).length := by
    simpa using hk
  rw [List.getD_eq_getElem _ _ hm, List.getElem_map, List.getD_eq_getElem _ _ hk]

theorem length_gatRowScores (p : GATParams) (F : ℕ) (H : List (List ℚ))
    (hi : List ℚ) (ci : List ℤ) :
    (gatRowScores p F H hi ci).length = ci.length := by
  simp [gatRowScores]

theorem gatRowScores_getD_sentinel (p : GATParams) (F : ℕ) (H : List (List ℚ))
    (hi : List ℚ) (ci : List ℤ) (k : ℕ) (hk : k < ci.length)
    (hneg : ci.getD k 0 < 0) :
    (gatRowScores p F H hi ci).getD k 0 = minusInf := by
  rw [List.getD_eq_getElem _ _ hk] at hneg
  simp only [gatRowScores]
  have hm : k < (ci.map (fun idx =>
      if 0 ≤ idx then rawScore p (matVec p.Wi hi) (matVec p.Wj (gatherRow F H idx))
      else minusInf)).length := by simpa using hk
  rw [List.getD_eq_getElem _ _ hm, List.getElem_map, if_neg (by omega)]

/-- Claim C1 (amended): in `GraphAttentionLayer.forward` the sentinel mask
is applied before the per-box softmax — at every slot with a negative
context index the pre-softmax score equals the constant `-9e15`; for every
box with a nonempty context row (in particular any box with a valid
neighbor) the attention weights sum to exactly 1; and a sentinel slot's
weight equals `E (-9e15) / Z`, with `Z` the box's softmax denominator —
in exact arithmetic a positive quantity, so not exactly 0 (it is 0 in the
source only by floating-point underflow of `exp`). -/
theorem C1_softmax_masking (E : ℚ → ℚ) (hE : ∀ x, 0 < E x) (p : GATParams)
    (F : ℕ) (H : List (List ℚ)) (hi : List ℚ) (ci : List ℤ)
    (hvalid : ∃ idx ∈ ci, 0 ≤ idx) :
    (gatRowWeights E p F H hi ci).sum = 1 ∧
    ∀ k, k < ci.length → ci.getD k 0 < 0 →
      (gatRowScores p F H hi ci).getD k 0 = minusInf ∧
      (gatRowWeights E p F H hi ci).getD k 0 =
        E minusInf / ((gatRowScores p F H hi ci).map E).sum ∧
      0 < (gatRowWeights E p F H hi ci).getD k 0 := by
  have hne : ci ≠ [] := by
    rintro rfl
    obtain ⟨i, hmem, _⟩ := hvalid
    simp at hmem
  have hsne : gatRowScores p F H hi ci ≠ [] := by
    intro h
    apply hne
    have hlen := congrArg List.length h
    rw [length_gatRowScores] at hlen
    exact List.eq_nil_of_length_eq_zero hlen
  refine ⟨softmaxWith_sum E hE _ hsne, ?_⟩
  intro k hk hneg
  have hks : k < (gatRowScores p F H hi ci).length := by
    rw [length_gatRowScores]; exact hk
  have hscore := gatRowScores_getD_sentinel p F H hi ci k hk hneg
  refine ⟨hscore, ?_, ?_⟩
  · rw [gatRowWeights, softmaxWith_getD E _ k hks, hscore]
  · rw [gatRowWeights, softmaxWith_getD E _ k hks, hscore]
    exact div_pos (hE _) (sum_map_pos E hE _ hsne)

/-- Witness for claim C1's amended theorem: one valid slot and one
sentinel slot, with the positive abstract exponential `fun x => 1`. -/
theorem C1_softmax_masking_witness :
    (∀ _x : ℚ, 0 < (1 : ℚ)) ∧
    (∃ idx ∈ ([0, -1] : List ℤ), 0 ≤ idx) ∧
    ((gatRowWeights (fun _ => 1) ⟨[[1]], [[1]], [0, 0], 0, 1/5⟩ 1 [[5]] [5]
        [0, -1]).sum = 1 ∧
      ∀ k, k < ([0, -1] : List ℤ).length → ([0, -1] : List ℤ).getD k 0 < 0 →
        (gatRowScores ⟨[[1]], [[1]], [0, 0], 0, 1/5⟩ 1 [[5]] [5]
            [0, -1]).getD k 0 = minusInf ∧
        (gatRowWeights (fun _ => 1) ⟨[[1]], [[1]], [0, 0], 0, 1/5⟩ 1 [[5]] [5]
            [0, -1]).getD k 0 =
          (1 : ℚ) / ((gatRowScores ⟨[[1]], [[1]], [0, 0], 0, 1/5⟩ 1 [[5]] [5]
            [0, -1]).map (fun _ => (1 : ℚ))).sum ∧
        0 < (gatRowWeights (fun _ => 1) ⟨[[1]], [[1]], [0, 0], 0, 1/5⟩ 1 [[5]] [5]
            [0, -1]).getD k 0) :=
  ⟨fun _ => one_pos, ⟨0, by decide, by decide⟩,
    C1_softmax_masking (fun _ => 1) (fun _ => one_pos)
      ⟨[[1]], [[1]], [0, 0], 0, 1/5⟩ 1 [[5]] [5] [0, -1] ⟨0, by decide, by decide⟩⟩

/-- Counterexample to claim C1 as stated: in exact arithmetic a sentinel
slot's softmax weight is not 0.  Here slot 1 is the sentinel (`-1`) and
slot 0 is a valid neighbor, yet slot 1's weight is `1/2 ≠ 0` under the
positive exponential `fun x => 1`; with the real `exp` it is
`exp (-9e15) / Z > 0`, which collapses to 0 only by floating-point
underflow. -/
theorem C1_sentinel_weight_counterexample :
    (gatRowWeights (fun _ => 1) ⟨[[1]], [[1]], [0, 0], 0, 1/5⟩ 1 [[5]] [5]
      [0, -1]).getD 1 0 ≠ 0 := by
  norm_num [gatRowWeights, softmaxWith, gatRowScores, rawScore, leakyReLU,
    dot, matVec, gatherRow, torchIdx, zeroVec, minusInf]

end CoVA
